import Mathlib

/-!
Verification development for the federated RecVAE training protocol
(`recvae/federated_train.py`).

The embedding models tensors as functions `ℕ → ℚ` (exact arithmetic in place
of floating point; all the verified claims are about exact algebraic
relationships or control flow, never about rounding).  Per-user gradient
dictionaries are association lists `List (String × Tensor)`; cohorts are lists
of user ids.  External collaborators (the RecVAE model, the k-means clustering
routine, the byte-size utility `get_size`, the neighbor sampler) are passed in
as explicit parameters, exactly where the Python code calls out to them.
-/

set_option maxHeartbeats 1000000

/-- A gradient tensor, indexed by a flat element index.  Exact rationals stand
in for the floating-point entries. -/
abbrev Tensor := ℕ → ℚ

/-- The full per-cohort gradient state of `Clients.MPC_perturb`:
user id → parameter name → gradient tensor (the `clients_grads` dict of
dicts). -/
abbrev Grads := ℕ → String → Tensor

namespace Clients

/-- In-place `grads -= share` on user `u`'s tensor for parameter `name`
(line `grads -= share` of `MPC_perturb`). -/
def subAt (g : Grads) (u : ℕ) (name : String) (sh : Tensor) : Grads :=
  fun w n => if w = u ∧ n = name then g w n - sh else g w n

/-- In-place `grads_to_send[name] += share` on user `v`'s tensor for
parameter `name`. -/
def addAt (g : Grads) (v : ℕ) (name : String) (sh : Tensor) : Grads :=
  fun w n => if w = v ∧ n = name then g w n + sh else g w n

/-- One masking exchange of `MPC_perturb`: subtract the random `share` from
the sender's gradient, add it to the recipient's.  Performing the subtraction
first and the addition second matches the sequential in-place updates of the
source (and is a no-op when sender and recipient coincide, as the two in-place
updates on the aliased tensor would be). -/
def applyShare (g : Grads) (u v : ℕ) (name : String) (sh : Tensor) : Grads :=
  addAt (subAt g u name sh) v name sh

/-- One iteration of the innermost loop of `MPC_perturb`, fully indexed:
`sender` is the uid `uids[i]`, `recipIdx` is the raw index `clients_idx[i][j]`
into `uids` (the code sends to `uids[clients_idx[i]][j]`), `pname` the
parameter name, and `share` the freshly drawn random tensor. -/
structure MpcStep where
  sender : ℕ
  recipIdx : ℕ
  pname : String
  share : Tensor

/-- The full sequence of masking exchanges performed by `MPC_perturb`, in
source order: for each sender position `i` (uid `uids[i]`), for each recipient
position `j` in `clients_idx[i]`, for each parameter `k` of the sender's
gradient dict (the claims assume all users share the same parameter names
`pnames`).  `shares i j k` is the random tensor drawn at that point
(`torch.randn_like(grads)`), kept abstract since the theorems hold for every
realization of the randomness. -/
def mpcSteps (uids : List ℕ) (clients_idx : List (List ℕ)) (pnames : List String)
    (shares : ℕ → ℕ → ℕ → Tensor) : List MpcStep :=
  uids.enum.flatMap fun p =>
    (clients_idx.getD p.1 []).enum.flatMap fun q =>
      pnames.enum.map fun r => ⟨p.2, q.2, r.2, shares p.1 q.1 r.1⟩

/-- Execute one `MpcStep` on the gradient state. -/
def applyStep (uids : List ℕ) (g : Grads) (s : MpcStep) : Grads :=
  applyShare g s.sender (uids.getD s.recipIdx 0) s.pname s.share

/-- `Clients.MPC_perturb`: run every masking exchange over the cohort's
gradient state.  (The communication-cost return value is modelled separately
in `clients_train`.) -/
def MPC_perturb (uids : List ℕ) (clients_idx : List (List ℕ)) (pnames : List String)
    (shares : ℕ → ℕ → ℕ → Tensor) (g : Grads) : Grads :=
  (mpcSteps uids clients_idx pnames shares).foldl (applyStep uids) g

/-- `Clients.get_mean_communications_cost`:
`sum(self.communication_cost) / max(len(self.communication_cost), 1)`. -/
def get_mean_communications_cost (communication_cost : List ℚ) : ℚ :=
  communication_cost.sum / (max communication_cost.length 1 : ℕ)

end Clients

/-- One user's gradient dictionary `{name: tensor}`, as an association list in
insertion order (Python dict keys are unique; theorems carry that as a
hypothesis where it matters). -/
abbrev GradsDict := List (String × Tensor)

/-- Scalar division of a tensor, `grad / clients_num`. -/
def tdiv (t : Tensor) (c : ℚ) : Tensor := fun i => t i / c

namespace Server

/-- One `aggregated_gradients[name] += grad / clients_num` update of
`Server.aggregate_gradients` (the accumulator is a `defaultdict`; absent names
read as zero — the Python default is the scalar `0.0`, which the claims never
hit since every user supplies every aggregated parameter). -/
def aggStep (clients_num : ℕ) (acc : String → Tensor) (e : String × Tensor) :
    String → Tensor :=
  fun n => if n = e.1 then acc n + tdiv e.2 clients_num else acc n

/-- The accumulation loop of `Server.aggregate_gradients`: fold every entry of
every user's gradient dict into the `defaultdict`. -/
def aggregate_pass (clients_grads : List GradsDict) : String → Tensor :=
  clients_grads.foldl (fun acc d => d.foldl (aggStep clients_grads.length) acc)
    (fun _ _ => 0)

/-- One named model parameter on the server, with its `requires_grad` flag and
its gradient accumulator (`param.grad`, `none` when the slot is unset). -/
structure ParamState where
  name : String
  requiresGrad : Bool
  grad : Option Tensor
deriving Inhabited

/-- `Server.aggregate_gradients`: accumulate the mean gradient, then for every
parameter that requires gradients either initialize its gradient slot
(`param.grad = aggregated.detach().clone()`) or add to it
(`param.grad += aggregated`); parameters with `requires_grad == False` are
skipped. -/
def aggregate_gradients (clients_grads : List GradsDict) (params : List ParamState) :
    List ParamState :=
  let agg := aggregate_pass clients_grads
  params.map fun p =>
    if p.requiresGrad then
      { p with grad := some (match p.grad with
          | none => agg p.name
          | some g0 => g0 + agg p.name) }
    else p

end Server

/-- `self.communication_cost[-1] = f(self.communication_cost[-1])`: mutate the
last ledger entry in place. -/
def updateLast (l : List ℚ) (f : ℚ → ℚ) : List ℚ :=
  l.set (l.length - 1) (f (l.getD (l.length - 1) 0))

namespace Clients

/-- `Clients.count_update_communication_cost`: iterate `clients_grads.values()`
(the per-user dicts of the uid-keyed mapping), total the byte size of every
gradient tensor being uploaded scaled by `para_percent`, and convert to
megabytes (`/ (1 << 20)`).  `compressed` is the literal `False` of source line
70, so the sparsity branch is dead: `para_fraction` stands for the
non-zero-row fraction it would compute, and `para_percent` is always `1.`.
`get_size` is the external `utils.get_size` byte-size routine, kept
abstract. -/
def count_update_communication_cost (get_size : Tensor → ℚ) (protect : List String)
    (para_fraction : Tensor → ℚ) (clients_grads : List (ℕ × GradsDict)) : ℚ :=
  let compressed := false
  ((clients_grads.map Prod.snd).map fun grads_dict =>
    (grads_dict.map fun e =>
      get_size e.2 * (if compressed ∧ e.1 ∈ protect then para_fraction e.2 else 1)).sum).sum
    / (2 ^ 20)

/-- The value `self.perturb_fuc(clients_grads)` evaluates to at source line
106: the MPC strategy (`MPC_perturb`, line 66) returns a
`(clients_grads, cost)` pair, while the identity strategy installed when
`perturb_method != 'MPC'` (line 43, `lambda g: g`) returns the bare uid-keyed
gradient dict. -/
inductive PerturbReturn
  | pair (grads : List (ℕ × GradsDict)) (cost : ℚ)
  | dictOnly (grads : List (ℕ × GradsDict))

/-- The communication-accounting skeleton of `Clients.train`: append the
download cost `get_size(model_param_state_dict) * len(uids) / 2^20`
(`state_size` is the state dict's byte size), then run line 106's unpack
`perturb_grads, communication_cost = self.perturb_fuc(clients_grads)` on the
strategy's return value.  When the strategy returned a pair (the MPC case),
add its reported exchange cost, add the upload cost of the perturbed
gradients, divide the round's entry by the cohort size and return the
perturbed gradients.  When it returned the bare dict (the identity lambda of
line 43), the unpack raises before the accounting completes: for a dict of
exactly two entries Python binds its two KEYS, so line 108 adds the second
uid to the round's entry and line 110 then raises `AttributeError` calling
`.values()` on the first uid; for any other size line 106 itself raises
`ValueError`.  Either way the call aborts with the round's ledger entry left
partial and undivided — the returned ledger is the object state at the point
the exception propagates.  The model loading and per-user forward/backward
are external collaborators. -/
def clients_train (ledger : List ℚ) (uids : List ℕ) (state_size : ℚ)
    (get_size : Tensor → ℚ) (protect : List String) (para_fraction : Tensor → ℚ)
    (perturb_return : PerturbReturn) :
    List ℚ × Except String (List (ℕ × GradsDict)) :=
  let ledger1 := ledger ++ [state_size * (uids.length : ℚ) / (2 ^ 20)]
  match perturb_return with
  | PerturbReturn.pair perturbed communication_cost =>
    let ledger2 := updateLast ledger1 (· + communication_cost)
    let ledger3 := updateLast ledger2
      (· + count_update_communication_cost get_size protect para_fraction perturbed)
    let ledger4 := updateLast ledger3 (· / (uids.length : ℚ))
    (ledger4, Except.ok perturbed)
  | PerturbReturn.dictOnly g =>
    if g.length = 2 then
      (updateLast ledger1 (· + ((g.getD 1 (0, [])).1 : ℚ)),
        Except.error "AttributeError: int object has no attribute values")
    else
      (ledger1, Except.error "ValueError: unpacking clients_grads")

end Clients

/-- The total gradient mass a user's dict carries for parameter `name` at
element `i`: the sum of the entries keyed `name` (for a well-formed dict,
the single tensor the user supplied for `name`, or `0` when absent). -/
def dictTensorAt (d : GradsDict) (name : String) (i : ℕ) : ℚ :=
  ((d.filter fun e => e.1 = name).map fun e => e.2 i).sum

section MPCTheorems

/-- Sum of a function over a duplicate-free list when the function is bumped
by `c` at one member: the sum gains exactly `c`. -/
theorem sum_map_pointUpdate (l : List ℕ) (f : ℕ → ℚ) (u : ℕ) (c : ℚ)
    (hu : u ∈ l) (hnd : l.Nodup) :
    (l.map fun w => if w = u then f w + c else f w).sum = (l.map f).sum + c := by
  induction l with
  | nil => cases hu
  | cons h t ih =>
    rcases List.nodup_cons.mp hnd with ⟨hht, hndt⟩
    rcases List.mem_cons.mp hu with rfl | hut
    · have : (t.map fun w => if w = u then f w + c else f w) = t.map f := by
        apply List.map_congr_left
        intro a ha
        have : a ≠ u := fun h => hht (h ▸ ha)
        simp [this]
      simp [this]
      ring
    · have hhu : h ≠ u := fun he => hht (he ▸ hut)
      simp only [List.map_cons, List.sum_cons, hhu, if_false, ih hut hndt]
      ring

/-- A single masking exchange does not change the cohort-wide sum of any
parameter's gradient at any element index, provided both endpoints belong to
the (duplicate-free) cohort. -/
theorem applyShare_sum (uids : List ℕ) (g : Grads) (u v : ℕ) (name : String)
    (sh : Tensor) (name' : String) (t : ℕ)
    (hu : u ∈ uids) (hv : v ∈ uids) (hnd : uids.Nodup) :
    (uids.map fun w => Clients.applyShare g u v name sh w name' t).sum
      = (uids.map fun w => g w name' t).sum := by
  by_cases hn : name' = name
  · subst hn
    have h1 : (uids.map fun w => Clients.subAt g u name' sh w name' t).sum
        = (uids.map fun w => g w name' t).sum + (-sh t) := by
      have : (uids.map fun w => Clients.subAt g u name' sh w name' t)
          = uids.map fun w => if w = u then g w name' t + (-sh t) else g w name' t := by
        apply List.map_congr_left
        intro a _
        by_cases hau : a = u <;> simp [Clients.subAt, hau, sub_eq_add_neg]
      rw [this, sum_map_pointUpdate uids _ u _ hu hnd]
    have h2 : (uids.map fun w => Clients.applyShare g u v name' sh w name' t)
        = uids.map fun w => if w = v then Clients.subAt g u name' sh w name' t + sh t
            else Clients.subAt g u name' sh w name' t := by
      apply List.map_congr_left
      intro a _
      by_cases hav : a = v <;> simp [Clients.applyShare, Clients.addAt, hav]
    rw [h2, sum_map_pointUpdate uids _ v _ hv hnd, h1]
    ring
  · have : (uids.map fun w => Clients.applyShare g u v name sh w name' t)
        = uids.map fun w => g w name' t := by
      apply List.map_congr_left
      intro a _
      simp [Clients.applyShare, Clients.addAt, Clients.subAt, hn]
    rw [this]

/-- Membership of the payload of an `enum` entry. -/
theorem snd_mem_of_mem_enum {α : Type} {l : List α} {p : ℕ × α} (h : p ∈ l.enum) :
    p.2 ∈ l := by
  rw [List.mem_enum_iff_getElem?] at h
  rcases List.getElem?_eq_some.mp h with ⟨hlt, he⟩
  exact he ▸ List.getElem_mem hlt

/-- `getD` at an in-range index is a member. -/
theorem getD_mem_of_lt {α : Type} {l : List α} {n : ℕ} (d : α) (h : n < l.length) :
    l.getD n d ∈ l := by
  rw [List.getD_eq_getElem l d h]
  exact List.getElem_mem h

/-- Folding any sequence of masking exchanges whose endpoints all lie in the
(duplicate-free) cohort preserves the cohort-wide per-parameter sums. -/
theorem foldl_applyStep_sum (uids : List ℕ) (steps : List Clients.MpcStep)
    (g : Grads) (name : String) (t : ℕ) (hnd : uids.Nodup)
    (hs : ∀ s ∈ steps, s.sender ∈ uids ∧ uids.getD s.recipIdx 0 ∈ uids) :
    (uids.map fun w => (steps.foldl (Clients.applyStep uids) g) w name t).sum
      = (uids.map fun w => g w name t).sum := by
  induction steps generalizing g with
  | nil => rfl
  | cons s rest ih =>
    have hhead := hs s (List.mem_cons_self s rest)
    have htail : ∀ s' ∈ rest, s'.sender ∈ uids ∧ uids.getD s'.recipIdx 0 ∈ uids :=
      fun s' h => hs s' (List.mem_cons_of_mem s h)
    simp only [List.foldl_cons]
    rw [ih (Clients.applyStep uids g s) htail]
    exact applyShare_sum uids g s.sender (uids.getD s.recipIdx 0) s.pname s.share
      name t hhead.1 hhead.2 hnd

/-- **C1.** Share conservation of the MPC pairwise-masking perturbation: for a
cohort with duplicate-free user ids, a neighbor assignment `clients_idx` that
stays inside the cohort (every sampled index is a valid position in `uids`,
with `xi ≥ 1` neighbors per user, none of them the user itself — the shape of
`sample_neighbor`'s output), and every realization of the random shares,
`Clients.MPC_perturb` leaves the sum over the cohort of every parameter's
gradient unchanged at every tensor element, in exact arithmetic. -/
theorem MPC_perturb_share_conservation (uids : List ℕ) (clients_idx : List (List ℕ))
    (pnames : List String) (shares : ℕ → ℕ → ℕ → Tensor) (g : Grads)
    (xi : ℕ) (name : String) (t : ℕ)
    (hnd : uids.Nodup)
    (hclosed : ∀ l ∈ clients_idx, ∀ j ∈ l, j < uids.length)
    (hxi : 1 ≤ xi)
    (hfan : ∀ l ∈ clients_idx, l.length = xi)
    (hnoself : ∀ i < clients_idx.length, i ∉ clients_idx.getD i []) :
    (uids.map fun u => Clients.MPC_perturb uids clients_idx pnames shares g u name t).sum
      = (uids.map fun u => g u name t).sum := by
  apply foldl_applyStep_sum uids _ g name t hnd
  intro s hsmem
  unfold Clients.mpcSteps at hsmem
  rcases List.mem_flatMap.mp hsmem with ⟨p, hp, hsmem⟩
  rcases List.mem_flatMap.mp hsmem with ⟨q, hq, hsmem⟩
  rcases List.mem_map.mp hsmem with ⟨r, _, hs⟩
  constructor
  · have : s.sender = p.2 := by rw [← hs]
    rw [this]
    exact snd_mem_of_mem_enum hp
  · have hrec : s.recipIdx = q.2 := by rw [← hs]
    rw [hrec]
    have hq2 : q.2 ∈ clients_idx.getD p.1 [] := snd_mem_of_mem_enum hq
    have hlt : q.2 < uids.length := by
      by_cases hpl : p.1 < clients_idx.length
      · exact hclosed _ (getD_mem_of_lt [] hpl) _ hq2
      · rw [List.getD_eq_default] at hq2
        · cases hq2
        · omega
    exact getD_mem_of_lt 0 hlt

/-- Witness for C1 at a concrete cohort: users `[10, 11]`, `xi = 1`, the two
users exchanging with each other, one parameter `"w"`, a nonzero share. -/
theorem MPC_perturb_share_conservation_witness :
    ([10, 11].map fun u =>
        Clients.MPC_perturb [10, 11] [[1], [0]] (["w"])
          (fun _ _ _ _ => (3 : ℚ)) (fun u _ _ => (u : ℚ)) u "w" 0).sum
      = ([10, 11].map fun u => (fun (u : ℕ) (_ : String) (_ : ℕ) => (u : ℚ)) u "w" 0).sum :=
  MPC_perturb_share_conservation [10, 11] [[1], [0]] (["w"]) (fun _ _ _ _ => (3 : ℚ))
    (fun u _ _ => (u : ℚ)) 1 "w" 0 (by decide) (by decide) le_rfl (by decide)
    (by decide)

end MPCTheorems

section AggregateTheorems

/-- Folding a single user's dict into the accumulator adds, at every name and
element, that user's gradient mass for the name divided by the cohort size. -/
theorem foldl_aggStep_at (N : ℕ) (d : GradsDict) (acc : String → Tensor)
    (name : String) (i : ℕ) :
    (d.foldl (Server.aggStep N) acc) name i = acc name i + dictTensorAt d name i / N := by
  induction d generalizing acc with
  | nil => simp [dictTensorAt]
  | cons e d ih =>
    simp only [List.foldl_cons]
    rw [ih]
    by_cases he : e.1 = name
    · have hne : name = e.1 := he.symm
      have hfil : dictTensorAt (e :: d) name i = e.2 i + dictTensorAt d name i := by
        unfold dictTensorAt
        rw [List.filter_cons_of_pos (by simp [he])]
        simp
      have hstep : (Server.aggStep N acc e) name i = acc name i + e.2 i / N := by
        simp [Server.aggStep, if_pos hne, tdiv]
      rw [hfil, hstep, add_div]
      ring
    · have hne : ¬(name = e.1) := fun h => he h.symm
      have hfil : dictTensorAt (e :: d) name i = dictTensorAt d name i := by
        unfold dictTensorAt
        rw [List.filter_cons_of_neg (by simp [he])]
      have hstep : (Server.aggStep N acc e) name i = acc name i := by
        simp [Server.aggStep, if_neg hne]
      rw [hfil, hstep]

/-- The accumulation loop over the whole cohort adds the cohort total divided
by the cohort size. -/
theorem foldl_agg_cohort (N : ℕ) (cg : List GradsDict) (acc : String → Tensor)
    (name : String) (i : ℕ) :
    (cg.foldl (fun acc d => d.foldl (Server.aggStep N) acc) acc) name i
      = acc name i + (cg.map fun d => dictTensorAt d name i).sum / N := by
  induction cg generalizing acc with
  | nil => simp
  | cons d cg ih =>
    simp only [List.foldl_cons, List.map_cons, List.sum_cons]
    rw [ih, foldl_aggStep_at, add_div]
    ring

/-- The `defaultdict` built by `Server.aggregate_gradients` holds, for every
name and element index, the cohort sum divided by the cohort size. -/
theorem aggregate_pass_at (cg : List GradsDict) (name : String) (i : ℕ) :
    Server.aggregate_pass cg name i
      = (cg.map fun d => dictTensorAt d name i).sum / cg.length := by
  unfold Server.aggregate_pass
  rw [foldl_agg_cohort]
  simp

/-- **C2.** `Server.aggregate_gradients` with a non-empty cohort in which
every user's dict has unique keys and contains the parameter's name: the
parameter at any position `k` of the server's parameter list is left untouched
when it does not require gradients, and otherwise keeps its name and flag
while its gradient slot becomes its previous content (zero when the slot was
unset) plus exactly the arithmetic mean — cohort sum over cohort size — of the
per-user gradient tensors for that name, elementwise in exact arithmetic. -/
theorem aggregate_gradients_mean (cg : List GradsDict) (params : List Server.ParamState)
    (k : ℕ) (hk : k < params.length) (hN : 1 ≤ cg.length)
    (hall : ∀ d ∈ cg, (d.map Prod.fst).count (params.getD k default).name = 1) :
    ((params.getD k default).requiresGrad = false →
      (Server.aggregate_gradients cg params).getD k default = params.getD k default) ∧
    ((params.getD k default).requiresGrad = true →
      ∃ t0, (Server.aggregate_gradients cg params).getD k default
          = { params.getD k default with grad := some t0 } ∧
        ∀ i, t0 i = ((params.getD k default).grad.getD 0) i
          + (cg.map fun d => dictTensorAt d (params.getD k default).name i).sum
            / cg.length) := by
  have hk' : k < (Server.aggregate_gradients cg params).length := by
    simpa [Server.aggregate_gradients] using hk
  have hget : (Server.aggregate_gradients cg params).getD k default
      = (fun p => if p.requiresGrad then
          { p with grad := some (match p.grad with
              | none => Server.aggregate_pass cg p.name
              | some g0 => g0 + Server.aggregate_pass cg p.name) }
          else p) (params.getD k default) := by
    rw [List.getD_eq_getElem _ default hk', List.getD_eq_getElem _ default hk]
    simp [Server.aggregate_gradients]
  revert hget
  generalize params.getD k default = p
  intro hget
  constructor
  · intro hreq
    rw [hget]
    simp [hreq]
  · intro hreq
    rw [hget]
    simp only [hreq, if_true]
    refine ⟨_, rfl, ?_⟩
    intro i
    cases hg : p.grad with
    | none => simp [hg, aggregate_pass_at]
    | some g0 => simp [hg, aggregate_pass_at]

/-- Witness for C2: two users each supplying tensors for `"w"`; the slot of
the requiring parameter gains the mean, the non-requiring parameter is
untouched. -/
theorem aggregate_gradients_mean_witness :
    (([⟨"w", true, none⟩, ⟨"b", false, some fun _ => 7⟩] :
        List Server.ParamState).getD 0 default).requiresGrad = true ∧
    ∃ t0, (Server.aggregate_gradients
        [[("w", fun _ => (2 : ℚ))], [("w", fun _ => (4 : ℚ))]]
        [⟨"w", true, none⟩, ⟨"b", false, some fun _ => 7⟩]).getD 0 default
        = { ([⟨"w", true, none⟩, ⟨"b", false, some fun _ => 7⟩] :
            List Server.ParamState).getD 0 default with grad := some t0 } ∧
      ∀ i, t0 i = ((([⟨"w", true, none⟩, ⟨"b", false, some fun _ => 7⟩] :
            List Server.ParamState).getD 0 default).grad.getD 0) i
        + (([[("w", fun _ => (2 : ℚ))], [("w", fun _ => (4 : ℚ))]].map
            fun d => dictTensorAt d (([⟨"w", true, none⟩,
              ⟨"b", false, some fun _ => 7⟩] :
              List Server.ParamState).getD 0 default).name i)).sum / 2 :=
  ⟨rfl,
    (aggregate_gradients_mean
      [[("w", fun _ => (2 : ℚ))], [("w", fun _ => (4 : ℚ))]]
      [⟨"w", true, none⟩, ⟨"b", false, some fun _ => 7⟩] 0
      (by decide) (by decide) (by decide)).2 rfl⟩

end AggregateTheorems

section LedgerTheorems

/-- **C10.** `Clients.get_mean_communications_cost` divides by
`max(len(ledger), 1)`: on an empty ledger it returns `0` instead of dividing
by zero, and on a non-empty ledger it returns the mean of the per-round
entries. -/
theorem get_mean_communications_cost_safe (ledger : List ℚ) :
    (ledger = [] → Clients.get_mean_communications_cost ledger = 0) ∧
    (ledger ≠ [] →
      Clients.get_mean_communications_cost ledger = ledger.sum / ledger.length) := by
  constructor
  · intro h
    subst h
    simp [Clients.get_mean_communications_cost]
  · intro h
    have hlen : 1 ≤ ledger.length := List.length_pos.mpr h
    unfold Clients.get_mean_communications_cost
    rw [max_eq_left hlen]

/-- Witness for C10 on a concrete non-empty ledger. -/
theorem get_mean_communications_cost_safe_witness :
    ([4, 8] : List ℚ) ≠ [] ∧
    Clients.get_mean_communications_cost [4, 8] = ([4, 8] : List ℚ).sum / 2 :=
  ⟨by decide, (get_mean_communications_cost_safe [4, 8]).2 (by decide)⟩

end LedgerTheorems

section RoundCostTheorems

/-- Mutating the last entry after an append hits exactly the appended entry. -/
theorem updateLast_append (l : List ℚ) (x : ℚ) (f : ℚ → ℚ) :
    updateLast (l ++ [x]) f = l ++ [f x] := by
  induction l with
  | nil => rfl
  | cons a l ih =>
    unfold updateLast at *
    have hlen : (a :: (l ++ [x])).length - 1 = ((l ++ [x]).length - 1) + 1 := by
      simp
    simp only [List.cons_append, hlen, List.getD_cons_succ, List.set_cons_succ]
    rw [ih]

/-- **C8 (counterexample to the claim as stated).** The claim quantifies over
every `Clients.train` call, but when `perturb_method != 'MPC'` the installed
strategy is the identity `lambda g: g` (line 43), which returns the bare dict:
on a one-user cohort the unpack at line 106 raises, so the round's appended
ledger entry stays at the bare download cost (here `1` MB) and is never
incremented by perturbation/upload nor divided — while the claim's formula
(download `1` + identity perturbation cost `0` + upload `1`, over cohort size
`1`) demands `2`, and no perturbed gradients are returned. -/
theorem clients_train_identity_counterexample :
    (Clients.clients_train [] [7] (2 ^ 20) (fun _ => 2 ^ 20) [] (fun _ => 0)
        (Clients.PerturbReturn.dictOnly [(7, [("w", fun _ => 0)])])).1 = [1] ∧
    (Clients.clients_train [] [7] (2 ^ 20) (fun _ => 2 ^ 20) [] (fun _ => 0)
        (Clients.PerturbReturn.dictOnly [(7, [("w", fun _ => 0)])])).2
      = Except.error "ValueError: unpacking clients_grads" ∧
    (1 : ℚ) ≠ ((2 ^ 20 : ℚ) * (([7] : List ℕ).length : ℚ) / (2 ^ 20) + 0
        + Clients.count_update_communication_cost (fun _ => 2 ^ 20) [] (fun _ => 0)
            [(7, [("w", fun _ => 0)])]) / (([7] : List ℕ).length : ℚ) := by
  refine ⟨?_, ?_, ?_⟩
  · show ([] : List ℚ) ++ [(2 ^ 20 : ℚ) * (([7] : List ℕ).length : ℚ) / (2 ^ 20)] = [1]
    norm_num
  · rfl
  · rw [show Clients.count_update_communication_cost (fun _ => 2 ^ 20) [] (fun _ => 0)
          [(7, [("w", fun _ => 0)])]
        = ((2 ^ 20 : ℚ) * 1 + 0) / (2 ^ 20) from by
      unfold Clients.count_update_communication_cost
      simp]
    norm_num

/-- **C8 (amended: the perturbation strategy returns a `(gradients, cost)`
pair, as the MPC strategy does).** For a non-empty cohort, when line 106's
unpack succeeds — the configured `perturb_fuc` returned a pair — the entry
`Clients.train` appends to the communication ledger is exactly
(download + perturbation + upload) divided by the cohort size, the download
cost being the state dict's byte size times the cohort size in megabytes; the
earlier ledger entries are untouched, the perturbed gradients are returned
unchanged, and (compression being disabled) the upload cost is the full
serialized size of the sent gradient mapping in megabytes, every parameter
counted at fraction 1.  (The identity strategy of line 43 returns a bare dict
and aborts the call at the unpack: `clients_train_identity_counterexample`.) -/
theorem clients_train_round_cost (ledger : List ℚ) (uids : List ℕ) (state_size : ℚ)
    (get_size : Tensor → ℚ) (protect : List String) (para_fraction : Tensor → ℚ)
    (perturbed : List (ℕ × GradsDict)) (perturb_cost : ℚ) (hne : uids ≠ []) :
    (Clients.clients_train ledger uids state_size get_size protect para_fraction
        (Clients.PerturbReturn.pair perturbed perturb_cost)).1
      = ledger ++ [(state_size * (uids.length : ℚ) / (2 ^ 20) + perturb_cost
          + Clients.count_update_communication_cost get_size protect para_fraction
              perturbed) / (uids.length : ℚ)] ∧
    (Clients.clients_train ledger uids state_size get_size protect para_fraction
        (Clients.PerturbReturn.pair perturbed perturb_cost)).2
      = Except.ok perturbed ∧
    Clients.count_update_communication_cost get_size protect para_fraction perturbed
      = ((perturbed.map Prod.snd).map fun grads_dict =>
          (grads_dict.map fun e => get_size e.2).sum).sum / (2 ^ 20) := by
  refine ⟨?_, rfl, ?_⟩
  · show updateLast (updateLast (updateLast
        (ledger ++ [state_size * (uids.length : ℚ) / (2 ^ 20)])
        (· + perturb_cost))
        (· + Clients.count_update_communication_cost get_size protect para_fraction
          perturbed))
        (· / (uids.length : ℚ)) = _
    rw [updateLast_append, updateLast_append, updateLast_append]
  · unfold Clients.count_update_communication_cost
    simp

/-- Witness for C8's amended theorem on a concrete one-user MPC round. -/
theorem clients_train_round_cost_witness :
    (Clients.clients_train [1] [7] (2 ^ 20) (fun _ => 2 ^ 20) [] (fun _ => 0)
        (Clients.PerturbReturn.pair [(7, [("w", fun _ => 0)])] 3)).1
      = [1] ++ [((2 ^ 20 : ℚ) * (([7] : List ℕ).length : ℚ) / (2 ^ 20) + 3
          + Clients.count_update_communication_cost (fun _ => 2 ^ 20) [] (fun _ => 0)
              [(7, [("w", fun _ => 0)])]) / (([7] : List ℕ).length : ℚ)] ∧
    (Clients.clients_train [1] [7] (2 ^ 20) (fun _ => 2 ^ 20) [] (fun _ => 0)
        (Clients.PerturbReturn.pair [(7, [("w", fun _ => 0)])] 3)).2
      = Except.ok [(7, [("w", fun _ => 0)])] ∧
    Clients.count_update_communication_cost (fun _ => 2 ^ 20) [] (fun _ => 0)
        [(7, [("w", fun _ => 0)])]
      = (([(7, [("w", (fun _ => 0 : Tensor))])].map Prod.snd).map fun grads_dict =>
          (grads_dict.map fun e => (fun _ => (2 ^ 20 : ℚ)) e.2).sum).sum / (2 ^ 20) :=
  clients_train_round_cost [1] [7] (2 ^ 20) (fun _ => 2 ^ 20) [] (fun _ => 0)
    [(7, [("w", fun _ => 0)])] 3 (by decide)

end RoundCostTheorems

/-! ### The gradient-inversion restoration attack (`Server.restore_from_gradient`)

NumPy matrices are lists of rows of rationals.  The external 2-means routine
(`sklearn.cluster.KMeans(n_clusters=2, random_state=seed).fit_predict`) is an
opaque collaborator: its output label vector is a parameter of the model.  The
row-wise Euclidean norm `np.linalg.norm(·, ord=2, axis=1)` is irrational in
general, so the row-norm function `ν` is likewise a parameter; the attack's
output depends on the norms only through the comparison of the two cluster
means, which the theorems take as hypotheses. -/

/-- A numpy 2-D array as a list of rows. -/
abbrev Mat := List (List ℚ)

/-- `np.sum(m, axis=1)[i]`: the sum of row `i`. -/
def rowSum (m : Mat) (i : ℕ) : ℚ := (m.getD i []).sum

/-- `np.sum(m, axis=1).nonzero()[0]`: the ascending list of indices of rows
with non-zero row sum. -/
def nonzeroRowIdx (m : Mat) : List ℕ :=
  (List.range m.length).filter fun i => rowSum m i ≠ 0

/-- A NumPy `<` comparison whose operands may be NaN (`none`, the mean of an
empty slice): every comparison against NaN is false. -/
def nanLt : Option ℚ → Option ℚ → Bool
  | some a, some b => decide (a < b)
  | _, _ => false

/-- `np.linalg.norm(rows[sel], ord=2, axis=1).mean()` for the cluster labelled
`side`: the mean of the row norms `ν` over the rows whose k-means label is
`side`, NaN (`none`) when that cluster is empty. -/
def clusterMean (ν : List ℚ → ℚ) (rows : List (List ℚ)) (labels : List Bool)
    (side : Bool) : Option ℚ :=
  let ns := ((labels.zip rows).filter fun p => p.1 == side).map fun p => ν p.2
  if ns.isEmpty then none else some (ns.sum / (ns.length : ℚ))

/-- `x_pred[pos] = 1` on a numpy vector: set every listed position to `1`. -/
def setOnes (v : List ℚ) (pos : List ℕ) : List ℚ :=
  pos.foldl (fun acc i => acc.set i 1) v

/-- Steps 2–5 of the attack for one user (source lines 199–210): restrict the
oriented decoder gradient to its non-zero-sum rows, take the k-means `labels`,
flip them when cluster 1's mean row norm is below cluster 0's
(`if g_norm1 < g_norm0: x_pred_ ^= 1`), and return the item indices predicted
interacted (`dec_grads_nonzero_idx[x_pred_.astype(bool)]`). -/
def predPositions (dec : Mat) (ν : List ℚ → ℚ) (labels : List Bool) : List ℕ :=
  let idx := nonzeroRowIdx dec
  let rows := idx.map fun i => dec.getD i []
  let flip := nanLt (clusterMean ν rows labels true) (clusterMean ν rows labels false)
  let finalLabels := if flip then labels.map (fun b => !b) else labels
  ((idx.zip finalLabels).filter fun p => p.2).map fun p => p.1

namespace Server

/-- The per-user body of `Server.restore_from_gradient` (steps 1–6 of the
attack), for one user's oriented gradient tensors.  `euc0 = none` models the
Python `euc_grads = None` taken when `enc_name == dec_name`; the source then
unconditionally evaluates `euc_grads.shape[0]`, which raises — modelled by the
`Except.error` branch.  `labels` is the k-means output on the non-zero rows,
`ν` the row-norm function. -/
def restore_user (n_items : ℕ) (dec0 : Mat) (euc0 : Option Mat)
    (use_enc_grad : Bool) (ν : List ℚ → ℚ) (labels : List Bool) :
    Except String (List ℚ) :=
  let dec := if dec0.length ≠ n_items then dec0.transpose else dec0
  match euc0 with
  | none => Except.error "AttributeError: NoneType object has no attribute shape"
  | some e0 =>
    let euc := if e0.length ≠ n_items then e0.transpose else e0
    let xpred := setOnes (List.replicate n_items 0) (predPositions dec ν labels)
    Except.ok (if use_enc_grad then setOnes xpred (nonzeroRowIdx euc) else xpred)

/-- `Server.restore_from_gradient` over a cohort of `(uid, grads_dict)` pairs:
each user's decoder gradient is `grads_dict[dec_name]`, the encoder gradient is
`None` exactly when `enc_name == dec_name`; `labelsOf uid` is the k-means
labelling of that user's non-zero rows.  The per-user metric evaluation and
logging after `x_pred` is built are outside the verified claims and omitted;
an exception aborts the cohort loop, as in Python. -/
def restore_from_gradient (n_items : ℕ) (enc_name dec_name : String)
    (use_enc_grad : Bool) (ν : List ℚ → ℚ)
    (cohort : List (ℕ × (String → Mat))) (labelsOf : ℕ → List Bool) :
    Except String (List (List ℚ)) :=
  match cohort with
  | [] => Except.ok []
  | (uid, gd) :: rest =>
    match restore_user n_items (gd dec_name)
        (if enc_name = dec_name then none else some (gd enc_name))
        use_enc_grad ν (labelsOf uid) with
    | Except.error e => Except.error e
    | Except.ok v =>
      match restore_from_gradient n_items enc_name dec_name use_enc_grad ν
          rest labelsOf with
      | Except.error e => Except.error e
      | Except.ok vs => Except.ok (v :: vs)

end Server

section RestoreTheorems

/-- Unfolding of `restore_user` when an encoder gradient is present and the
decoder gradient is already item-oriented. -/
theorem restore_user_oriented_eq (n_items : ℕ) (dec e0 : Mat) (use_enc_grad : Bool)
    (ν : List ℚ → ℚ) (labels : List Bool) (hlen : dec.length = n_items) :
    Server.restore_user n_items dec (some e0) use_enc_grad ν labels =
      Except.ok (if use_enc_grad then
          setOnes (setOnes (List.replicate n_items 0) (predPositions dec ν labels))
            (nonzeroRowIdx (if e0.length ≠ n_items then e0.transpose else e0))
        else setOnes (List.replicate n_items 0) (predPositions dec ν labels)) := by
  subst hlen
  simp [Server.restore_user]

/-- **C3 (code evaluation).** When the configured encoder parameter name equals
the decoder parameter name, `restore_from_gradient` on any non-empty cohort
raises (Python: `euc_grads.shape[0]` with `euc_grads = None` throws
`AttributeError` at the first user) instead of completing the attack with the
refinement skipped. -/
theorem restore_from_gradient_crashes_when_names_equal (n_items : ℕ)
    (name : String) (use_enc_grad : Bool) (ν : List ℚ → ℚ)
    (cohort : List (ℕ × (String → Mat))) (labelsOf : ℕ → List Bool)
    (hne : cohort ≠ []) :
    Server.restore_from_gradient n_items name name use_enc_grad ν cohort labelsOf
      = Except.error "AttributeError: NoneType object has no attribute shape" := by
  cases cohort with
  | nil => exact absurd rfl hne
  | cons u rest =>
    obtain ⟨uid, gd⟩ := u
    unfold Server.restore_from_gradient
    simp [Server.restore_user]

theorem setOnes_cons (v : List ℚ) (p : ℕ) (ps : List ℕ) :
    setOnes v (p :: ps) = setOnes (v.set p 1) ps := rfl

theorem setOnes_length (v : List ℚ) (pos : List ℕ) :
    (setOnes v pos).length = v.length := by
  induction pos generalizing v with
  | nil => rfl
  | cons p ps ih => rw [setOnes_cons, ih, List.length_set]

/-- Reading the prediction vector after the positional writes: a listed
in-range position reads `1`, anything else is unchanged. -/
theorem setOnes_getD (v : List ℚ) (pos : List ℕ) (i : ℕ) (hi : i < v.length) :
    (setOnes v pos).getD i 0 = if i ∈ pos then 1 else v.getD i 0 := by
  induction pos generalizing v with
  | nil => simp [setOnes]
  | cons p ps ih =>
    rw [setOnes_cons, ih (v.set p 1) (by simpa using hi)]
    by_cases hpi : p = i
    · subst hpi
      have h1 : (v.set p 1).getD p 0 = 1 := by
        rw [List.getD_eq_getElem _ _ (by simpa using hi), List.getElem_set_self]
      rw [if_pos (List.mem_cons_self p ps)]
      by_cases hm : p ∈ ps
      · rw [if_pos hm]
      · rw [if_neg hm, h1]
    · have h1 : (v.set p 1).getD i 0 = v.getD i 0 := by
        rw [List.getD_eq_getElem _ _ (by simpa using hi), List.getElem_set_ne hpi,
          List.getD_eq_getElem _ _ hi]
      rw [h1]
      have hip : ¬(i = p) := fun h => hpi h.symm
      by_cases hm : i ∈ ps
      · simp [hm, List.mem_cons]
      · simp [hm, hip, List.mem_cons]

/-- The positional writes keep the vector binary when it started binary. -/
theorem setOnes_binary (v : List ℚ) (pos : List ℕ)
    (hv : ∀ q ∈ v, q = 0 ∨ q = 1) : ∀ q ∈ setOnes v pos, q = 0 ∨ q = 1 := by
  induction pos generalizing v with
  | nil => exact hv
  | cons p ps ih =>
    rw [setOnes_cons]
    apply ih
    intro q hq
    rcases List.mem_or_eq_of_mem_set hq with h | h
    · exact hv q h
    · exact Or.inr h

theorem getD_replicate_zero (n i : ℕ) : (List.replicate n (0 : ℚ)).getD i 0 = 0 := by
  by_cases h : i < n
  · rw [List.getD_eq_getElem _ _ (by simpa using h)]
    simp
  · rw [List.getD_eq_default _ _ (by simpa using h)]

/-- The positions kept by `idx[x_pred_.astype(bool)]` with unflipped labels
are exactly the indices paired with a `true` label. -/
theorem mem_selected_iff (idx : List ℕ) (ls : List Bool) (i : ℕ) :
    (i ∈ ((idx.zip ls).filter fun p => p.2).map fun p => p.1) ↔
      (i, true) ∈ idx.zip ls := by
  constructor
  · intro h
    rcases List.mem_map.mp h with ⟨q, hq, hqi⟩
    rcases List.mem_filter.mp hq with ⟨hmem, hq2⟩
    obtain ⟨q1, q2⟩ := q
    have h2 : q2 = true := hq2
    have h1 : q1 = i := hqi
    subst h2
    subst h1
    exact hmem
  · intro h
    exact List.mem_map.mpr ⟨(i, true), List.mem_filter.mpr ⟨h, rfl⟩, rfl⟩

/-- The positions kept after the label flip `x_pred_ ^= 1` are exactly the
indices paired with a `false` original label. -/
theorem mem_selected_flip_iff (idx : List ℕ) (ls : List Bool) (i : ℕ) :
    (i ∈ ((idx.zip (ls.map fun b => !b)).filter fun p => p.2).map fun p => p.1) ↔
      (i, false) ∈ idx.zip ls := by
  rw [List.zip_map_right]
  constructor
  · intro h
    rcases List.mem_map.mp h with ⟨q, hq, hqi⟩
    rcases List.mem_filter.mp hq with ⟨hmem, hq2⟩
    rcases List.mem_map.mp hmem with ⟨r, hr, hrq⟩
    obtain ⟨r1, r2⟩ := r
    subst hrq
    have h2 : (!r2) = true := hq2
    have h1 : r1 = i := hqi
    subst h1
    cases r2 with
    | false => exact hr
    | true => exact absurd h2 (by decide)
  · intro h
    apply List.mem_map.mpr
    refine ⟨(i, true), List.mem_filter.mpr ⟨?_, rfl⟩, rfl⟩
    exact List.mem_map.mpr ⟨(i, false), h, rfl⟩

/-- Witness for C3's evaluation theorem at a concrete cohort: one user, the
shared parameter name `"dec.w"`, a 2×1 decoder gradient. -/
theorem restore_from_gradient_crashes_when_names_equal_witness :
    Server.restore_from_gradient 2 "dec.w" "dec.w" false (fun r => r.sum)
        [(0, fun _ => [[5], [0]])] (fun _ => [true])
      = Except.error "AttributeError: NoneType object has no attribute shape" :=
  restore_from_gradient_crashes_when_names_equal 2 "dec.w" false (fun r => r.sum)
    [(0, fun _ => [[5], [0]])] (fun _ => [true]) (List.cons_ne_nil _ _)

/-- The predicted positions, with the label flip made explicit. -/
theorem predPositions_eq (dec : Mat) (ν : List ℚ → ℚ) (labels : List Bool) :
    predPositions dec ν labels =
      if nanLt (clusterMean ν ((nonzeroRowIdx dec).map fun i => dec.getD i []) labels true)
          (clusterMean ν ((nonzeroRowIdx dec).map fun i => dec.getD i []) labels false) then
        (((nonzeroRowIdx dec).zip (labels.map fun b => !b)).filter fun p => p.2).map
          fun p => p.1
      else (((nonzeroRowIdx dec).zip labels).filter fun p => p.2).map fun p => p.1 := by
  simp only [predPositions]
  cases nanLt (clusterMean ν ((nonzeroRowIdx dec).map fun i => dec.getD i []) labels true)
      (clusterMean ν ((nonzeroRowIdx dec).map fun i => dec.getD i []) labels false) <;> simp

/-- **C4.** When 2-means splits the non-zero-sum rows of an (item-oriented)
decoder-gradient matrix into two non-empty clusters — cluster mean norms
`some a` for label 1 and `some b` for label 0, `a ≠ b` — the attack's
decoder-based prediction marks exactly the items of the cluster with the
larger mean norm with `1` and every other item with `0` (rows of the
smaller-norm cluster and the zero-sum rows excluded up front), whichever label
the clustering originally used: the predicted value at item `i` is `1` iff
`i` is a non-zero row whose k-means label is the larger-mean side
`decide (b < a)`. -/
theorem restore_user_larger_cluster_wins (n_items : ℕ) (dec e0 : Mat)
    (ν : List ℚ → ℚ) (labels : List Bool) (a b : ℚ)
    (hlen : dec.length = n_items)
    (hm1 : clusterMean ν ((nonzeroRowIdx dec).map fun i => dec.getD i []) labels true
      = some a)
    (hm0 : clusterMean ν ((nonzeroRowIdx dec).map fun i => dec.getD i []) labels false
      = some b)
    (hab : a ≠ b) :
    ∃ v, Server.restore_user n_items dec (some e0) false ν labels = Except.ok v ∧
      v.length = n_items ∧
      ∀ i < n_items, v.getD i 0 =
        if (i, decide (b < a)) ∈ (nonzeroRowIdx dec).zip labels then 1 else 0 := by
  rw [restore_user_oriented_eq n_items dec e0 false ν labels hlen]
  refine ⟨setOnes (List.replicate n_items 0) (predPositions dec ν labels), rfl, ?_, ?_⟩
  · rw [setOnes_length, List.length_replicate]
  · intro i hi
    rw [setOnes_getD _ _ i (by simpa using hi)]
    rw [predPositions_eq, hm1, hm0]
    rcases lt_or_gt_of_ne hab with hlt | hgt
    · have hbs : decide (b < a) = false := by simp [lt_asymm hlt]
      have hflip : nanLt (some a) (some b) = true := by simp [nanLt, hlt]
      rw [hbs, if_pos hflip]
      by_cases hmem : ((i, false) ∈ (nonzeroRowIdx dec).zip labels)
      · rw [if_pos ((mem_selected_flip_iff _ _ _).mpr hmem), if_pos hmem]
      · rw [if_neg fun hc => hmem ((mem_selected_flip_iff _ _ _).mp hc), if_neg hmem,
          getD_replicate_zero]
    · have hbs : decide (b < a) = true := by simp [hgt]
      have hflip : nanLt (some a) (some b) = false := by simp [nanLt, lt_asymm hgt]
      rw [hbs, if_neg (show ¬(nanLt (some a) (some b) = true) by simp [hflip])]
      by_cases hmem : ((i, true) ∈ (nonzeroRowIdx dec).zip labels)
      · rw [if_pos ((mem_selected_iff _ _ _).mpr hmem), if_pos hmem]
      · rw [if_neg fun hc => hmem ((mem_selected_iff _ _ _).mp hc), if_neg hmem,
          getD_replicate_zero]

/-- Witness for C4: items `{0,1,2,3}`, decoder gradient with zero rows at
`0, 2` and non-zero rows `[5]` (norm 5, k-means label 0) and `[1]` (norm 1,
k-means label 1): the larger-norm cluster is label 0, so the flip fires and
item 1 alone is predicted interacted. -/
theorem restore_user_larger_cluster_wins_witness :
    ∃ v, Server.restore_user 4 [[0], [5], [0], [1]] (some [[0], [0], [0], [0]])
        false (fun r => r.sum) [false, true] = Except.ok v ∧
      v.length = 4 ∧
      ∀ i < 4, v.getD i 0 =
        if (i, decide ((5 : ℚ) < 1)) ∈
            (nonzeroRowIdx [[0], [5], [0], [1]]).zip [false, true] then 1 else 0 :=
  restore_user_larger_cluster_wins 4 [[0], [5], [0], [1]] [[0], [0], [0], [0]]
    (fun r => r.sum) [false, true] 1 5 (by norm_num)
    (by norm_num [clusterMean, nonzeroRowIdx, rowSum, List.range_succ])
    (by norm_num [clusterMean, nonzeroRowIdx, rowSum, List.range_succ])
    (by norm_num)

/-- **C9.** Degenerate clustering: when the decoder-gradient matrix is
item-oriented with at least two non-zero-sum rows and 2-means puts every one
of them in the single cluster `s`, the other cluster's mean norm is the mean
of an empty slice — NaN, modelled `none` — the NaN comparison is still
defined (false), and the attack does not crash: it returns a binary predicted
vector over all items for the user. -/
theorem restore_user_degenerate_cluster (n_items : ℕ) (dec e0 : Mat)
    (use_enc_grad : Bool) (ν : List ℚ → ℚ) (labels : List Bool) (s : Bool)
    (hlen : dec.length = n_items)
    (hrows : 2 ≤ (nonzeroRowIdx dec).length)
    (hlab : labels.length = (nonzeroRowIdx dec).length)
    (hconst : ∀ x ∈ labels, x = s) :
    clusterMean ν ((nonzeroRowIdx dec).map fun i => dec.getD i []) labels (!s) = none ∧
    ∃ v, Server.restore_user n_items dec (some e0) use_enc_grad ν labels = Except.ok v ∧
      v.length = n_items ∧ ∀ q ∈ v, q = 0 ∨ q = 1 := by
  constructor
  · have hfil : ((labels.zip ((nonzeroRowIdx dec).map fun i => dec.getD i [])).filter
        fun p => p.1 == !s) = [] := by
      rw [List.filter_eq_nil_iff]
      intro p hp
      have h1 : p.1 = s := hconst _ (List.of_mem_zip hp).1
      simp [h1]
    simp only [clusterMean]
    rw [hfil]
    simp
  · rw [restore_user_oriented_eq n_items dec e0 use_enc_grad ν labels hlen]
    cases use_enc_grad with
    | false =>
      refine ⟨setOnes (List.replicate n_items 0) (predPositions dec ν labels),
        rfl, ?_, ?_⟩
      · rw [setOnes_length, List.length_replicate]
      · exact setOnes_binary _ _ fun q hq => Or.inl (List.eq_of_mem_replicate hq)
    | true =>
      refine ⟨setOnes (setOnes (List.replicate n_items 0) (predPositions dec ν labels))
          (nonzeroRowIdx (if e0.length ≠ n_items then e0.transpose else e0)),
        rfl, ?_, ?_⟩
      · rw [setOnes_length, setOnes_length, List.length_replicate]
      · exact setOnes_binary _ _
          (setOnes_binary _ _ fun q hq => Or.inl (List.eq_of_mem_replicate hq))

/-- Witness for C9: two non-zero rows, both assigned to cluster 1. -/
theorem restore_user_degenerate_cluster_witness :
    clusterMean (fun r => r.sum)
        ((nonzeroRowIdx [[5], [1]]).map fun i => ([[5], [1]] : Mat).getD i [])
        [true, true] (!true) = none ∧
    ∃ v, Server.restore_user 2 [[5], [1]] (some [[0], [0]]) false
        (fun r => r.sum) [true, true] = Except.ok v ∧
      v.length = 2 ∧ ∀ q ∈ v, q = 0 ∨ q = 1 :=
  restore_user_degenerate_cluster 2 [[5], [1]] [[0], [0]] false (fun r => r.sum)
    [true, true] true (by norm_num)
    (by norm_num [nonzeroRowIdx, rowSum, List.range_succ])
    (by norm_num [nonzeroRowIdx, rowSum, List.range_succ])
    (by decide)

end RestoreTheorems

/-! ### `Server.run` and the scheduling of `Server.train` (C5, C6)

The round loop's observable behaviour is modelled as a trace of events: which
optimizers are zeroed and stepped, which cohort is trained with which dropout,
when gradients are aggregated, when the model's prior-update hook fires, and
when the restoration attack runs.  The cohorts a `DataLoader` pass yields are
a parameter (`cohortss`, one list of cohorts per `for _ in range(n_epochs)`
iteration — the loader reshuffles each pass). -/

/-- The two optimizers of the server. -/
inductive OptName
  | encoder
  | decoder
deriving DecidableEq

/-- One observable action of `Server.run` / `Server.train`. -/
inductive Event
  | zeroGrad (opts : List OptName)
  | clientsTrain (dropout : ℚ) (cohort : List ℕ)
  | aggregate (cohort : List ℕ)
  | optStep (opts : List OptName)
  | updatePrior
  | restore (cohort : List ℕ)
deriving DecidableEq

namespace Server

/-- The body of `Server.run`'s cohort loop: zero every optimizer's gradients,
`Clients.train` on the cohort with the given dropout, aggregate, step every
optimizer, and — when the `to_restore` flag is still set — run the
restoration attack on this cohort's gradients. -/
def cohortEvents (opts : List OptName) (dropout : ℚ) (c : List ℕ)
    (to_restore : Bool) : List Event :=
  [Event.zeroGrad opts, Event.clientsTrain dropout c, Event.aggregate c,
    Event.optStep opts] ++ (if to_restore then [Event.restore c] else [])

/-- One `for uids in uid_seq` pass of `Server.run`, threading the
`to_restore` flag (the source clears it inside `if to_restore:`). -/
def runCohorts (opts : List OptName) (dropout : ℚ) :
    List (List ℕ) → Bool → List Event × Bool
  | [], flag => ([], flag)
  | c :: cs, flag =>
    let ev := cohortEvents opts dropout c flag
    let flag' := if flag then false else flag
    let rest := runCohorts opts dropout cs flag'
    (ev ++ rest.1, rest.2)

/-- `Server.run`: `for _ in range(n_epochs): for uids in uid_seq: ...`;
`cohortss` lists, per epoch of the call, the cohorts the loader yields. -/
def run (opts : List OptName) (dropout : ℚ) :
    List (List (List ℕ)) → Bool → List Event × Bool
  | [], flag => ([], flag)
  | cs :: rest, flag =>
    let e := runCohorts opts dropout cs flag
    let r := run opts dropout rest e.2
    (e.1 ++ r.1, r.2)

/-- The training phase of one epoch of `Server.train`: alternating mode runs
the encoder-only phase (`n_enc_epochs` passes, configured dropout, `to_restore`
not forwarded), then `self.model.update_prior()`, then the decoder-only phase
(`n_dec_epochs` passes, dropout 0, `to_restore` forwarded); joint mode runs a
single pass with both optimizers. -/
def epochEvents (alternating : Bool) (dropout : ℚ)
    (encCohortss decCohortss jointCohortss : List (List (List ℕ)))
    (to_restore : Bool) : List Event :=
  if alternating then
    (run [OptName.encoder] dropout encCohortss false).1
      ++ [Event.updatePrior]
      ++ (run [OptName.decoder] 0 decCohortss to_restore).1
  else (run [OptName.encoder, OptName.decoder] dropout jointCohortss to_restore).1

end Server

section RunTheorems

/-- With the restore flag down, a cohort pass leaves the flag down and never
restores. -/
theorem runCohorts_false_no_restore (opts : List OptName) (dropout : ℚ)
    (cs : List (List ℕ)) :
    (Server.runCohorts opts dropout cs false).2 = false ∧
    ∀ c, Event.restore c ∉ (Server.runCohorts opts dropout cs false).1 := by
  induction cs with
  | nil => exact ⟨rfl, fun c => by simp [Server.runCohorts]⟩
  | cons c cs ih =>
    constructor
    · simp only [Server.runCohorts]
      exact ih.1
    · intro c'
      simp only [Server.runCohorts, List.mem_append]
      rintro (h | h)
      · simp [Server.cohortEvents] at h
      · exact ih.2 c' h

/-- With the restore flag down, a whole `Server.run` call never restores. -/
theorem run_false_no_restore (opts : List OptName) (dropout : ℚ)
    (css : List (List (List ℕ))) :
    (Server.run opts dropout css false).2 = false ∧
    ∀ c, Event.restore c ∉ (Server.run opts dropout css false).1 := by
  induction css with
  | nil => exact ⟨rfl, fun c => by simp [Server.run]⟩
  | cons cs rest ih =>
    constructor
    · simp only [Server.run, (runCohorts_false_no_restore opts dropout cs).1]
      exact ih.1
    · intro c'
      simp only [Server.run, List.mem_append, (runCohorts_false_no_restore opts dropout cs).1]
      rintro (h | h)
      · exact (runCohorts_false_no_restore opts dropout cs).2 c' h
      · exact ih.2 c' h

/-- **C5.** With the restore flag set, `Server.run` performs the restoration
attack exactly once, on the very first cohort processed in the call, directly
after that cohort's optimizer step — the trace starts with that cohort's
zero-grad / client-train / aggregate / step events followed immediately by the
restore event, and no later event of the call is a restore; with the flag not
set, no restore ever happens. -/
theorem run_restore_exactly_once (opts : List OptName) (dropout : ℚ)
    (cohortss : List (List (List ℕ))) (c0 : List ℕ) (crest : List (List ℕ))
    (hflat : cohortss.flatten = c0 :: crest) :
    (∃ tail, (Server.run opts dropout cohortss true).1
        = [Event.zeroGrad opts, Event.clientsTrain dropout c0, Event.aggregate c0,
           Event.optStep opts, Event.restore c0] ++ tail ∧
        ∀ c, Event.restore c ∉ tail) ∧
    (∀ c, Event.restore c ∉ (Server.run opts dropout cohortss false).1) := by
  refine ⟨?_, (run_false_no_restore opts dropout cohortss).2⟩
  induction cohortss generalizing crest with
  | nil => simp at hflat
  | cons cs rest ih =>
    cases cs with
    | nil =>
      have hflat' : rest.flatten = c0 :: crest := by simpa using hflat
      obtain ⟨tail, htail, hno⟩ := ih crest hflat'
      refine ⟨tail, ?_, hno⟩
      simpa [Server.run, Server.runCohorts] using htail
    | cons c cs' =>
      have hc : c = c0 := by
        have : c :: (cs' ++ rest.flatten) = c0 :: crest := by simpa using hflat
        exact (List.cons.injEq _ _ _ _ ▸ this : _ ∧ _).1
      subst hc
      refine ⟨(Server.runCohorts opts dropout cs' false).1
          ++ (Server.run opts dropout rest false).1, ?_, ?_⟩
      · simp [Server.run, Server.runCohorts, Server.cohortEvents,
          (runCohorts_false_no_restore opts dropout cs').1]
      · intro c'
        rw [List.mem_append]
        rintro (h | h)
        · exact (runCohorts_false_no_restore opts dropout cs').2 c' h
        · exact (run_false_no_restore opts dropout rest).2 c' h

/-- Witness for C5: two epochs of two cohorts each, flag set. -/
theorem run_restore_exactly_once_witness :
    (∃ tail, (Server.run [OptName.decoder] 0 [[[0], [1]], [[2], [3]]] true).1
        = [Event.zeroGrad [OptName.decoder], Event.clientsTrain 0 [0],
           Event.aggregate [0], Event.optStep [OptName.decoder],
           Event.restore [0]] ++ tail ∧
        ∀ c, Event.restore c ∉ tail) ∧
    (∀ c, Event.restore c ∉
      (Server.run [OptName.decoder] 0 [[[0], [1]], [[2], [3]]] false).1) :=
  run_restore_exactly_once [OptName.decoder] 0 [[[0], [1]], [[2], [3]]] [0]
    [[1], [2], [3]] (by decide)

end RunTheorems

/-- What every event of one `Server.run` call must look like: gradient zeroing
and optimizer steps touch exactly the optimizers passed to the call, every
client training round uses the call's dropout probability, and the prior
hook never fires inside `run`. -/
def phaseOK (opts : List OptName) (dropout : ℚ) : Event → Prop
  | Event.zeroGrad o => o = opts
  | Event.optStep o => o = opts
  | Event.clientsTrain d _ => d = dropout
  | Event.updatePrior => False
  | Event.aggregate _ => True
  | Event.restore _ => True

section ScheduleTheorems

theorem runCohorts_phaseOK (opts : List OptName) (dropout : ℚ)
    (cs : List (List ℕ)) (flag : Bool) :
    ∀ e ∈ (Server.runCohorts opts dropout cs flag).1, phaseOK opts dropout e := by
  induction cs generalizing flag with
  | nil => intro e he; simp [Server.runCohorts] at he
  | cons c cs ih =>
    intro e he
    simp only [Server.runCohorts, List.mem_append] at he
    rcases he with h | h
    · simp only [Server.cohortEvents, List.mem_append, List.mem_cons,
        List.not_mem_nil, or_false] at h
      rcases h with (rfl | rfl | rfl | rfl) | h
      · rfl
      · rfl
      · trivial
      · rfl
      · cases flag with
        | false => simp at h
        | true =>
          simp only [if_true, List.mem_cons, List.not_mem_nil, or_false] at h
          subst h
          trivial
    · exact ih _ e h

theorem run_phaseOK (opts : List OptName) (dropout : ℚ)
    (css : List (List (List ℕ))) (flag : Bool) :
    ∀ e ∈ (Server.run opts dropout css flag).1, phaseOK opts dropout e := by
  induction css generalizing flag with
  | nil => intro e he; simp [Server.run] at he
  | cons cs rest ih =>
    intro e he
    simp only [Server.run, List.mem_append] at he
    rcases he with h | h
    · exact runCohorts_phaseOK opts dropout cs flag e h
    · exact ih _ e h

/-- Each cohort contributes exactly one optimizer step to the trace. -/
theorem runCohorts_count_optStep (opts : List OptName) (dropout : ℚ)
    (cs : List (List ℕ)) (flag : Bool) :
    (Server.runCohorts opts dropout cs flag).1.count (Event.optStep opts)
      = cs.length := by
  induction cs generalizing flag with
  | nil => simp [Server.runCohorts]
  | cons c cs ih =>
    simp only [Server.runCohorts, List.count_append, ih, List.length_cons]
    have hce : (Server.cohortEvents opts dropout c flag).count (Event.optStep opts) = 1 := by
      cases flag <;> simp [Server.cohortEvents, List.count_cons, List.count_nil]
    rw [hce]
    ring

/-- A `run` call contributes one optimizer step per cohort per pass. -/
theorem run_count_optStep (opts : List OptName) (dropout : ℚ)
    (css : List (List (List ℕ))) (flag : Bool) :
    (Server.run opts dropout css flag).1.count (Event.optStep opts)
      = (css.map List.length).sum := by
  induction css generalizing flag with
  | nil => simp [Server.run]
  | cons cs rest ih =>
    simp only [Server.run, List.count_append, runCohorts_count_optStep, ih,
      List.map_cons, List.sum_cons]

/-- **C6.** In alternating scheduling mode an epoch's trace is exactly the
encoder phase, one prior-update call, then the decoder phase: the encoder
phase consists of `n_enc_epochs` passes (one optimizer step per cohort)
touching only the encoder optimizer with the configured dropout and never
restoring; the single `update_prior` event separates the phases; the decoder
phase consists of `n_dec_epochs` passes touching only the decoder optimizer
with dropout 0, and only there is the restoration attack eligible. -/
theorem epoch_alternating_structure (dropout : ℚ) (n_enc n_dec : ℕ)
    (encCohortss decCohortss jointCohortss : List (List (List ℕ)))
    (to_restore : Bool)
    (henc : encCohortss.length = n_enc) (hdec : decCohortss.length = n_dec) :
    ∃ t1 t2,
      Server.epochEvents true dropout encCohortss decCohortss jointCohortss to_restore
          = t1 ++ [Event.updatePrior] ++ t2 ∧
      t1 = (Server.run [OptName.encoder] dropout encCohortss false).1 ∧
      t2 = (Server.run [OptName.decoder] 0 decCohortss to_restore).1 ∧
      Event.updatePrior ∉ t1 ∧
      Event.updatePrior ∉ t2 ∧
      (∀ o, Event.zeroGrad o ∈ t1 → o = [OptName.encoder]) ∧
      (∀ o, Event.optStep o ∈ t1 → o = [OptName.encoder]) ∧
      (∀ d c, Event.clientsTrain d c ∈ t1 → d = dropout) ∧
      (∀ c, Event.restore c ∉ t1) ∧
      (∀ o, Event.zeroGrad o ∈ t2 → o = [OptName.decoder]) ∧
      (∀ o, Event.optStep o ∈ t2 → o = [OptName.decoder]) ∧
      (∀ d c, Event.clientsTrain d c ∈ t2 → d = 0) ∧
      t1.count (Event.optStep [OptName.encoder]) = (encCohortss.map List.length).sum ∧
      t2.count (Event.optStep [OptName.decoder]) = (decCohortss.map List.length).sum := by
  refine ⟨(Server.run [OptName.encoder] dropout encCohortss false).1,
    (Server.run [OptName.decoder] 0 decCohortss to_restore).1,
    rfl, rfl, rfl, ?_, ?_, ?_, ?_, ?_, ?_, ?_, ?_, ?_,
    run_count_optStep _ _ _ _, run_count_optStep _ _ _ _⟩
  · intro h
    exact run_phaseOK _ _ _ _ _ h
  · intro h
    exact run_phaseOK _ _ _ _ _ h
  · intro o ho
    exact run_phaseOK _ _ _ _ _ ho
  · intro o ho
    exact run_phaseOK _ _ _ _ _ ho
  · intro d c hdc
    exact run_phaseOK _ _ _ _ _ hdc
  · exact (run_false_no_restore _ _ _).2
  · intro o ho
    exact run_phaseOK _ _ _ _ _ ho
  · intro o ho
    exact run_phaseOK _ _ _ _ _ ho
  · intro d c hdc
    exact run_phaseOK _ _ _ _ _ hdc

/-- Witness for C6: one encoder pass over cohort `[0]`, one decoder pass over
cohort `[1]`, restore flag set, dropout `1/2`. -/
theorem epoch_alternating_structure_witness :
    ∃ t1 t2,
      Server.epochEvents true (1 / 2) [[[0]]] [[[1]]] [] true
          = t1 ++ [Event.updatePrior] ++ t2 ∧
      t1 = (Server.run [OptName.encoder] (1 / 2) [[[0]]] false).1 ∧
      t2 = (Server.run [OptName.decoder] 0 [[[1]]] true).1 ∧
      Event.updatePrior ∉ t1 ∧
      Event.updatePrior ∉ t2 ∧
      (∀ o, Event.zeroGrad o ∈ t1 → o = [OptName.encoder]) ∧
      (∀ o, Event.optStep o ∈ t1 → o = [OptName.encoder]) ∧
      (∀ d c, Event.clientsTrain d c ∈ t1 → d = 1 / 2) ∧
      (∀ c, Event.restore c ∉ t1) ∧
      (∀ o, Event.zeroGrad o ∈ t2 → o = [OptName.decoder]) ∧
      (∀ o, Event.optStep o ∈ t2 → o = [OptName.decoder]) ∧
      (∀ d c, Event.clientsTrain d c ∈ t2 → d = 0) ∧
      t1.count (Event.optStep [OptName.encoder]) = (([[[0]]] : List (List (List ℕ))).map List.length).sum ∧
      t2.count (Event.optStep [OptName.decoder]) = (([[[1]]] : List (List (List ℕ))).map List.length).sum :=
  epoch_alternating_structure (1 / 2) 1 1 [[[0]]] [[[1]]] [] true rfl rfl

end ScheduleTheorems

/-! ### The epoch loop of `Server.train` with early stopping (C7)

Per-epoch validation NDCG@k values are a deterministic sequence `ndcgs`
(the evaluation is an external collaborator).  `best_ndcg` starts at
`-np.inf`, modelled `none` — every rational strictly improves it. -/

namespace Server

/-- `ndcg5 > best_ndcg` of the source, with `none` standing for the initial
`-np.inf`. -/
def improves (best : Option ℚ) (x : ℚ) : Bool :=
  match best with
  | none => true
  | some b => decide (b < x)

/-- The epoch loop of `Server.train`: `fuel` is the number of epochs left in
`range(self.epochs)`, `e` the current epoch index, `best` the best NDCG seen,
`pat` the patience counter (an integer: the source's `patience -= 1` can pass
below zero, and only the exact test `patience == 0` breaks), `saves` the
epochs whose checkpoint was written, most recent first.  On improvement the
checkpoint is saved, the best value replaced and patience reset to
`early_stop`; otherwise patience decrements and the loop breaks when it hits
exactly zero.  Returns (number of executed epochs, saved epochs in order). -/
def trainGo (ndcgs : ℕ → ℚ) (early_stop : ℕ) :
    ℕ → ℕ → Option ℚ → ℤ → List ℕ → ℕ × List ℕ
  | 0, e, _, _, saves => (e, saves.reverse)
  | fuel + 1, e, best, pat, saves =>
    if improves best (ndcgs e) then
      trainGo ndcgs early_stop fuel (e + 1) (some (ndcgs e)) (early_stop : ℤ)
        (e :: saves)
    else if pat - 1 = 0 then (e + 1, saves.reverse)
    else trainGo ndcgs early_stop fuel (e + 1) best (pat - 1) saves

/-- `Server.train`'s epoch loop from its initial state. -/
def trainLoop (ndcgs : ℕ → ℚ) (epochs early_stop : ℕ) : ℕ × List ℕ :=
  trainGo ndcgs early_stop epochs 0 none (early_stop : ℤ) []

end Server

/-- The best NDCG the loop holds entering epoch `e` (the running strict
maximum of the first `e` values; `none` before any epoch ran). -/
def prefixBest (ndcgs : ℕ → ℚ) : ℕ → Option ℚ
  | 0 => none
  | e + 1 =>
    if Server.improves (prefixBest ndcgs e) (ndcgs e) then some (ndcgs e)
    else prefixBest ndcgs e

/-- Epoch `e` strictly improves the best validation NDCG seen before it. -/
def isRecord (ndcgs : ℕ → ℚ) (e : ℕ) : Bool :=
  Server.improves (prefixBest ndcgs e) (ndcgs e)

section TrainTheorems

/-- Loop invariant for `Server.trainGo`: entering epoch `e` with the running
best, the saved epochs being exactly the improving epochs so far (most recent
first, at least one), and patience `early_stop - (e - 1 - lastSave)`, the loop
executes `min (e + fuel) (lastImproving + early_stop + 1)` epochs in total and
saves exactly the improving epochs among them. -/
theorem trainGo_invariant (ndcgs : ℕ → ℚ) (ES : ℕ) (hES : 1 ≤ ES) :
    ∀ (fuel e : ℕ) (saves : List ℕ) (pat : ℤ),
      saves ≠ [] →
      saves.reverse = (List.range e).filter (fun j => isRecord ndcgs j) →
      pat = (ES : ℤ) + (saves.headD 0 : ℤ) + 1 - (e : ℤ) →
      1 ≤ pat →
      (Server.trainGo ndcgs ES fuel e (prefixBest ndcgs e) pat saves).2
          = (List.range (Server.trainGo ndcgs ES fuel e (prefixBest ndcgs e) pat
              saves).1).filter (fun j => isRecord ndcgs j) ∧
      (Server.trainGo ndcgs ES fuel e (prefixBest ndcgs e) pat saves).1
          = min (e + fuel)
            ((Server.trainGo ndcgs ES fuel e (prefixBest ndcgs e) pat saves).2.getLastD 0
              + ES + 1) := by
  intro fuel
  induction fuel with
  | zero =>
    intro e saves pat hne hrev hpat hpat1
    have hgo : Server.trainGo ndcgs ES 0 e (prefixBest ndcgs e) pat saves
        = (e, saves.reverse) := rfl
    rw [hgo]
    refine ⟨hrev, ?_⟩
    have hlast : saves.reverse.getLastD 0 = saves.headD 0 := by
      rw [List.getLastD_eq_getLast?, List.getLast?_reverse, List.headD_eq_head?]
    rw [hlast]
    omega
  | succ fuel ih =>
    intro e saves pat hne hrev hpat hpat1
    have hstep : Server.trainGo ndcgs ES (fuel + 1) e (prefixBest ndcgs e) pat saves
        = if Server.improves (prefixBest ndcgs e) (ndcgs e) then
            Server.trainGo ndcgs ES fuel (e + 1) (some (ndcgs e)) (ES : ℤ) (e :: saves)
          else if pat - 1 = 0 then (e + 1, saves.reverse)
          else Server.trainGo ndcgs ES fuel (e + 1) (prefixBest ndcgs e) (pat - 1)
            saves := rfl
    by_cases hrec : Server.improves (prefixBest ndcgs e) (ndcgs e) = true
    · have hpb : some (ndcgs e) = prefixBest ndcgs (e + 1) := by
        unfold prefixBest
        rw [if_pos hrec]
      have hgo : Server.trainGo ndcgs ES (fuel + 1) e (prefixBest ndcgs e) pat saves
          = Server.trainGo ndcgs ES fuel (e + 1) (prefixBest ndcgs (e + 1))
            (ES : ℤ) (e :: saves) := by
        rw [hstep, if_pos hrec, hpb]
      rw [hgo]
      have hrev' : (e :: saves).reverse
          = (List.range (e + 1)).filter (fun j => isRecord ndcgs j) := by
        rw [List.range_succ, List.filter_append, ← hrev]
        have hfe : (List.filter (fun j => isRecord ndcgs j) [e]) = [e] := by
          simp [List.filter_cons, isRecord, hrec]
        rw [hfe]
        simp
      have hmain := ih (e + 1) (e :: saves) (ES : ℤ) (List.cons_ne_nil _ _) hrev'
        (by simp) (by omega)
      have harith : e + (fuel + 1) = e + 1 + fuel := by omega
      rw [harith]
      exact hmain
    · have hrec' : isRecord ndcgs e = false := by
        unfold isRecord
        cases h : Server.improves (prefixBest ndcgs e) (ndcgs e) with
        | false => rfl
        | true => exact absurd h hrec
      have hrange : (List.range (e + 1)).filter (fun j => isRecord ndcgs j)
          = (List.range e).filter (fun j => isRecord ndcgs j) := by
        rw [List.range_succ, List.filter_append]
        simp [List.filter_cons, hrec']
      by_cases hstop : pat - 1 = 0
      · have hgo : Server.trainGo ndcgs ES (fuel + 1) e (prefixBest ndcgs e) pat saves
            = (e + 1, saves.reverse) := by
          rw [hstep, if_neg hrec, if_pos hstop]
        rw [hgo]
        constructor
        · rw [hrange, hrev]
        · have hlast : saves.reverse.getLastD 0 = saves.headD 0 := by
            rw [List.getLastD_eq_getLast?, List.getLast?_reverse, List.headD_eq_head?]
          rw [hlast]
          omega
      · have hpb1 : prefixBest ndcgs (e + 1)
            = if Server.improves (prefixBest ndcgs e) (ndcgs e) then some (ndcgs e)
              else prefixBest ndcgs e := rfl
        have hpb : prefixBest ndcgs (e + 1) = prefixBest ndcgs e := by
          rw [hpb1, if_neg hrec]
        have hgo : Server.trainGo ndcgs ES (fuel + 1) e (prefixBest ndcgs e) pat saves
            = Server.trainGo ndcgs ES fuel (e + 1) (prefixBest ndcgs (e + 1))
              (pat - 1) saves := by
          rw [hstep, if_neg hrec, if_neg hstop, hpb]
        rw [hgo]
        have hmain := ih (e + 1) saves (pat - 1) hne (by rw [hrange, hrev])
          (by omega) (by omega)
        have harith : e + (fuel + 1) = e + 1 + fuel := by omega
        rw [harith]
        exact hmain

/-- **C7 (amended: requires `early_stop ≥ 1`).** For every deterministic
sequence of per-epoch validation NDCG values, the epoch loop saves a
checkpoint (resetting patience) exactly on the improving epochs — those whose
NDCG strictly exceeds the best seen before them — and the number of executed
epochs is exactly `min epochs (last improving epoch + 1 + early_stop)`: the
loop halts `early_stop` epochs after the last improving epoch, never earlier
and never later, unless the configured maximum epoch count is reached
first. -/
theorem train_early_stopping (ndcgs : ℕ → ℚ) (epochs ES : ℕ)
    (hES : 1 ≤ ES) (hep : 1 ≤ epochs) :
    (Server.trainLoop ndcgs epochs ES).2
        = (List.range (Server.trainLoop ndcgs epochs ES).1).filter
            (fun j => isRecord ndcgs j) ∧
    (Server.trainLoop ndcgs epochs ES).2 ≠ [] ∧
    (Server.trainLoop ndcgs epochs ES).1
        = min epochs ((Server.trainLoop ndcgs epochs ES).2.getLastD 0 + ES + 1) := by
  obtain ⟨fuel, rfl⟩ : ∃ f, epochs = f + 1 := ⟨epochs - 1, by omega⟩
  have hpb : prefixBest ndcgs 1 = some (ndcgs 0) := rfl
  have hstep : Server.trainLoop ndcgs (fuel + 1) ES
      = Server.trainGo ndcgs ES fuel 1 (prefixBest ndcgs 1) (ES : ℤ) [0] := by
    have h1 : Server.trainLoop ndcgs (fuel + 1) ES
        = Server.trainGo ndcgs ES fuel 1 (some (ndcgs 0)) (ES : ℤ) [0] := rfl
    rw [h1, hpb]
  have h0 : isRecord ndcgs 0 = true := rfl
  have hrev : ([0] : List ℕ).reverse
      = (List.range 1).filter (fun j => isRecord ndcgs j) := by
    simp [List.range_succ, h0]
  have happ := trainGo_invariant ndcgs ES hES fuel 1 [0] (ES : ℤ)
    (List.cons_ne_nil _ _) hrev (by norm_num) (by exact_mod_cast hES)
  have hmin : 1 + fuel = fuel + 1 := by omega
  rw [hmin] at happ
  rw [hstep]
  refine ⟨happ.1, ?_, happ.2⟩
  have h1le : 1 ≤ (Server.trainGo ndcgs ES fuel 1 (prefixBest ndcgs 1) (ES : ℤ) [0]).1 := by
    rw [happ.2]
    omega
  have h0mem : (0 : ℕ) ∈ (List.range
      (Server.trainGo ndcgs ES fuel 1 (prefixBest ndcgs 1) (ES : ℤ) [0]).1).filter
      (fun j => isRecord ndcgs j) :=
    List.mem_filter.mpr ⟨List.mem_range.mpr (by omega), h0⟩
  rw [happ.1]
  exact List.ne_nil_of_mem h0mem

/-- Witness for C7's theorem: NDCG values 1, 0, 0, …, `epochs = 3`,
`early_stop = 1`: the loop saves epoch 0 only and executes 2 epochs. -/
theorem train_early_stopping_witness :
    (Server.trainLoop (fun e => if e = 0 then (1 : ℚ) else 0) 3 1).2
        = (List.range (Server.trainLoop (fun e => if e = 0 then (1 : ℚ) else 0) 3 1).1).filter
            (fun j => isRecord (fun e => if e = 0 then (1 : ℚ) else 0) j) ∧
    (Server.trainLoop (fun e => if e = 0 then (1 : ℚ) else 0) 3 1).2 ≠ [] ∧
    (Server.trainLoop (fun e => if e = 0 then (1 : ℚ) else 0) 3 1).1
        = min 3 ((Server.trainLoop (fun e => if e = 0 then (1 : ℚ) else 0) 3 1).2.getLastD 0
            + 1 + 1) :=
  train_early_stopping (fun e => if e = 0 then (1 : ℚ) else 0) 3 1 le_rfl (by omega)

/-- **C7 (counterexample to the claim as stated).** With `early_stop = 0`,
NDCG values 1, 0 and `epochs = 2`, the only improving epoch is epoch 0, so
the claim predicts the loop halts after `min 2 (0 + 0 + 1) = 1` epoch —
the epoch cap is not the binding constraint — but the source's
`patience -= 1; if patience == 0` test skips from 0 to -1 and never fires:
the loop executes all 2 epochs. -/
theorem trainLoop_zero_patience_counterexample :
    Server.trainLoop (fun e => if e = 0 then (1 : ℚ) else 0) 2 0 = (2, [0]) ∧
    (Server.trainLoop (fun e => if e = 0 then (1 : ℚ) else 0) 2 0).2.getLastD 0 + 0 + 1
      < 2 ∧
    (Server.trainLoop (fun e => if e = 0 then (1 : ℚ) else 0) 2 0).1
      ≠ min 2 ((Server.trainLoop (fun e => if e = 0 then (1 : ℚ) else 0) 2 0).2.getLastD 0
          + 0 + 1) := by
  have h1 : Server.improves (some (1 : ℚ)) 0 = false := by
    norm_num [Server.improves]
  have hval : Server.trainLoop (fun e => if e = 0 then (1 : ℚ) else 0) 2 0 = (2, [0]) := by
    have s1 : Server.trainLoop (fun e => if e = 0 then (1 : ℚ) else 0) 2 0
        = Server.trainGo (fun e => if e = 0 then (1 : ℚ) else 0) 0 1 1 (some 1)
          (0 : ℤ) [0] := rfl
    have s2 : Server.trainGo (fun e => if e = 0 then (1 : ℚ) else 0) 0 1 1 (some 1)
          (0 : ℤ) [0]
        = if Server.improves (some (1 : ℚ)) ((fun e => if e = 0 then (1 : ℚ) else 0) 1)
            then Server.trainGo (fun e => if e = 0 then (1 : ℚ) else 0) 0 0 2
              (some ((fun e => if e = 0 then (1 : ℚ) else 0) 1)) (0 : ℤ) [1, 0]
          else if (0 : ℤ) - 1 = 0 then (2, [0])
          else Server.trainGo (fun e => if e = 0 then (1 : ℚ) else 0) 0 0 2 (some 1)
            ((0 : ℤ) - 1) [0] := rfl
    rw [s1, s2, if_neg (by simp [h1]), if_neg (by decide)]
    rfl
  refine ⟨hval, ?_, ?_⟩
  · rw [hval]
    decide
  · rw [hval]
    decide

end TrainTheorems
